import Mathlib

/-!
Shallow embedding of the `howmanylines` scan-and-aggregate engine
(main variant in the repository, the one with `-rank` leaderboards,
default skip-file list and the text classifier).

Bytes are modelled as `Nat` (values 0..255), byte streams as `List Nat`,
file names and paths as `String`.  File sizes and line counts are `Nat`
(the Go code uses `int64`, but all values produced by the scan are
byte/line counts, hence non-negative, and far from overflow).

Filesystem effects are modelled by giving each regular file two read
outcomes (one per `os.Open` in the code: the classifier's sniff read and
the line counter's full read) and each directory an optional enumeration
error; `Except` models Go's `(value, error)` convention, with `.error`
standing for the fatal-error path in which the caller discards the stats.
-/

namespace HowManyLines

/-- ASCII model of Go `strings.ToLower` (all names in the claims are ASCII,
where Go's Unicode lowering and ASCII lowering agree). -/
def toLowerStr (s : String) : String := String.mk (s.toList.map Char.toLower)

/-- `Go strings.HasPrefix(s, ".")`: the name starts with the hidden marker. -/
def startsWithDot (s : String) : Bool :=
  match s.toList with
  | [] => false
  | c :: _ => c = '.'

/-- Byte-lexicographic `<=` on strings, the order Go's `<` on strings induces
(UTF-8 byte order and code-point order agree). -/
def lexLe : List Char → List Char → Bool
  | [], _ => true
  | _ :: _, [] => false
  | a :: as, b :: bs => if a = b then lexLe as bs else decide (a < b)

/-- Non-strict string order used by the leaderboard comparators. -/
def strLe (a b : String) : Bool := lexLe a.toList b.toList

/-- `bs` begins with `pre` (used only to model `filepath.Rel` on the walk's
own paths). -/
def beginsWith : List Char → List Char → Bool
  | _, [] => true
  | [], _ :: _ => false
  | a :: as, b :: bs => a = b && beginsWith as bs

/-- Core of `filepath.Ext`: walk the path from the end (the input here is the
reversed character list); a `.` found before any separator yields the suffix
from that dot (inclusive), a separator or the start of the string yields "". -/
def goExtCore (acc : List Char) : List Char → List Char
  | [] => []
  | c :: rest =>
    if c = '/' then []
    else if c = '.' then '.' :: acc
    else goExtCore (c :: acc) rest

/-- Model of Go `filepath.Ext`: the suffix beginning at the final dot of the
final path element, including the dot; "" when there is no dot. -/
def goExt (s : String) : String := String.mk (goExtCore [] s.toList.reverse)

/-- `defaultSkipDirs` from the source. -/
def defaultSkipDirs : List String :=
  [".git", ".hg", ".svn", "node_modules", "vendor", "dist", "build", "target"]

/-- `defaultSkipFiles` from the source: lock/manifest metadata files skipped
by exact lower-cased name when no explicit extension set is given. -/
def defaultSkipFiles : List String :=
  ["package-lock.json", "yarn.lock", "pnpm-lock.yaml", "bun.lockb",
   "cargo.lock", "cargo.toml", "go.sum", "poetry.lock", "pipfile.lock",
   "composer.lock", "gemfile.lock"]

/-- One step of the byte loop in `countLines`: a line-feed (0x0A) bumps the
line count and records that the last byte was a newline; any other byte
clears that record.  The accumulator is `(lines, lastByteNL)`. -/
def countLinesStep (acc : Nat × Bool) (b : Nat) : Nat × Bool :=
  if b = 10 then (acc.1 + 1, true) else (acc.1, false)

/-- `countLines` on a fully-read byte stream: the chunked read loop of the
source visits every byte of the file exactly once in order, so it is
embedded as a single left fold with the loop's state `(lines, lastByteNL)`
starting at `(0, true)`; afterwards, a non-empty stream whose last byte was
not a line-feed gets one extra (unterminated) line.  Returns
`(lineCount, byteSize)`. -/
def countLines (data : List Nat) : Nat × Nat :=
  let r := data.foldl countLinesStep (0, true)
  let lines := if 0 < data.length ∧ r.2 = false then r.1 + 1 else r.1
  (lines, data.length)

/-- Outcome of opening-and-reading a file, one value per `os.Open`+read
sequence in the code. -/
inductive ReadOutcome where
  | ok (data : List Nat)
  | permDenied
  | otherErr
deriving DecidableEq

/-- Error taxonomy the code distinguishes, via `errors.Is(err, fs.ErrPermission)`. -/
inductive GoErr where
  | permission
  | other
deriving DecidableEq

/-- The byte loop of `isLikelyTextFile`: a byte counts as non-text unless it
is LF, CR, TAB, printable ASCII 0x20..0x7E, or at least 0x80.  The three
`continue` branches of the source loop appear as the three nested guards. -/
def nonTextCount (data : List Nat) : Nat :=
  data.foldl
    (fun nonText b =>
      if b = 10 ∨ b = 13 ∨ b = 9 then nonText
      else if 32 ≤ b ∧ b ≤ 126 then nonText
      else if 128 ≤ b then nonText
      else nonText + 1) 0

/-- `isLikelyTextFile` on the sniff-read outcome.  An open or read failure
returns false.  Otherwise the sample is the first (up to) 8192 bytes; an
empty sample is text, a NUL byte makes it binary, and otherwise the file is
text when `float64(nonText)/float64(len) <= 0.30` in the source.  That float
comparison is embedded as the exact rational test `10*nonText ≤ 3*len`:
for `0 ≤ n ≤ d ≤ 8192` both `float64(n)/float64(d)` (an exactly-representable
quotient, correctly rounded, error below 2^-54) and the literal `0.30`
(rounded to `0.29999999999999998889776975374843…`) are within `6·10^-17` of
their rational values, while `n/d` and `3/10` differ by at least
`1/81920 ≈ 1.2·10^-5` whenever they differ at all, so the rounded comparison
agrees with the rational one on every reachable input. -/
def isLikelyTextFile (sniff : ReadOutcome) : Bool :=
  match sniff with
  | .permDenied => false
  | .otherErr => false
  | .ok data =>
    let sample := data.take 8192
    if sample.length = 0 then true
    else if sample.contains 0 then false
    else decide (10 * nonTextCount sample ≤ 3 * sample.length)

/-- `os.Open` + full read, as seen by `countLines`' caller. -/
def readFile : ReadOutcome → Except GoErr (List Nat)
  | .ok data => .ok data
  | .permDenied => .error .permission
  | .otherErr => .error .other

/-- Fallible `countLines`, the `(lines, size, err)` triple of the source:
an open or read failure propagates; otherwise the pure count. -/
def countLinesAt (read : ReadOutcome) : Except GoErr (Nat × Nat) :=
  match readFile read with
  | .error e => .error e
  | .ok data => .ok (countLines data)

/-- `fileStat` from the source. -/
structure fileStat where
  Path : String
  Lines : Nat
  Bytes : Nat
deriving DecidableEq

/-- `stats` from the source. -/
structure stats where
  Files : Nat
  Lines : Nat
  Bytes : Nat
  PerFile : List fileStat
deriving DecidableEq

/-- `extStat` from the source. -/
structure extStat where
  Ext : String
  Files : Nat
  Lines : Nat
deriving DecidableEq

/-- Model of `filepath.Rel(root, path)` for the paths this walk produces:
the root itself maps to ".", a path below the root loses the `root ++ "/"`
prefix, and (as in the source, which falls back to `path` when `Rel`
errors) anything else is returned unchanged. -/
def goRel (root path : String) : String :=
  if path = root then "."
  else if beginsWith path.toList (root.toList ++ ['/']) then
    String.mk (path.toList.drop (root.toList.length + 1))
  else path

mutual
/-- A filesystem entry as `filepath.WalkDir` presents it: a file carries its
regular-file flag and the two read outcomes (classifier sniff, full read);
a directory carries an optional enumeration error (`some e` models a failing
`os.ReadDir`, in which case no children are seen) and its children in the
lexical order `WalkDir` uses. -/
inductive Entry where
  | file (name : String) (isRegular : Bool) (sniff read : ReadOutcome)
  | dir (name : String) (listErr : Option GoErr) (entries : EntryList)
deriving DecidableEq
inductive EntryList where
  | nil
  | cons (e : Entry) (rest : EntryList)
deriving DecidableEq
end

/-- The name of an entry, `d.Name()` in the callback. -/
def Entry.name : Entry → String
  | .file n _ _ _ => n
  | .dir n _ _ => n

/-- Accounting step for an accepted file: run the line counter; a
permission-denied error silently skips the file (`return nil`), any other
error is fatal; on success bump the aggregates and append a `fileStat`
with the root-relative path. -/
def tallyFile (root path : String) (read : ReadOutcome) (s : stats) :
    Except GoErr stats :=
  match countLinesAt read with
  | .error e => if e = .permission then .ok s else .error e
  | .ok c =>
    .ok { Files := s.Files + 1, Lines := s.Lines + c.1, Bytes := s.Bytes + c.2,
          PerFile := s.PerFile ++ [{ Path := goRel root path, Lines := c.1, Bytes := c.2 }] }

/-- The file branch of the `WalkDir` callback: drop non-regular entries,
drop hidden files when hidden entries are excluded, then either the
explicit-extension allow-list (when non-empty) or the default chain
(skip-file list, empty/.exe extension, text classifier), and finally the
line counter via `tallyFile`. -/
def visitFile (count : List String) (includeHidden : Bool)
    (root path name : String) (isRegular : Bool) (sniff read : ReadOutcome)
    (s : stats) : Except GoErr stats :=
  if isRegular = false then .ok s
  else if includeHidden = false ∧ startsWithDot name then .ok s
  else
    let lowerName := toLowerStr name
    let ext := toLowerStr (goExt name)
    if 0 < count.length then
      if count.contains ext = false then .ok s
      else tallyFile root path read s
    else
      if defaultSkipFiles.contains lowerName then .ok s
      else if ext = "" ∨ ext = ".exe" then .ok s
      else if isLikelyTextFile sniff = false then .ok s
      else tallyFile root path read s

mutual
/-- The `filepath.WalkDir` traversal with the source's callback.  A
directory first passes the skip checks (skip-set membership, hidden name),
both disabled when its path equals the root; a surviving directory whose
enumeration fails returns that error through the callback (`walkErr` is
returned unchanged, whatever its kind), and otherwise its children are
walked in order with paths joined by `/`, any child error aborting the
fold. -/
def walkEntry (skip count : List String) (includeHidden : Bool)
    (root path : String) (e : Entry) (s : stats) : Except GoErr stats :=
  match e with
  | .file name isRegular sniff read =>
    visitFile count includeHidden root path name isRegular sniff read s
  | .dir name listErr entries =>
    if skip.contains name ∧ path ≠ root then .ok s
    else if includeHidden = false ∧ startsWithDot name ∧ path ≠ root then .ok s
    else
      match listErr with
      | some e => .error e
      | none => walkEntries skip count includeHidden root path entries s
def walkEntries (skip count : List String) (includeHidden : Bool)
    (root parent : String) (es : EntryList) (s : stats) : Except GoErr stats :=
  match es with
  | .nil => .ok s
  | .cons e rest =>
    match walkEntry skip count includeHidden root (parent ++ "/" ++ e.name) e s with
    | .error err => .error err
    | .ok s1 => walkEntries skip count includeHidden root parent rest s1
end

/-- `scan`: walk the tree rooted at `fsys` (whose path is `root`) starting
from zeroed stats. -/
def scan (root : String) (skip count : List String) (includeHidden : Bool)
    (fsys : Entry) : Except GoErr stats :=
  walkEntry skip count includeHidden root root fsys
    { Files := 0, Lines := 0, Bytes := 0, PerFile := [] }

/-- Comparator of `printFileLeaderboard`'s `sort.Slice`, as the non-strict
total relation it sorts by: more lines first, ties by ascending path. -/
def fileLe (a b : fileStat) : Bool :=
  decide (b.Lines < a.Lines) || (decide (a.Lines = b.Lines) && strLe a.Path b.Path)

/-- The sorting relation of the file leaderboard, as a `Prop` relation. -/
def fileOrd (a b : fileStat) : Prop := fileLe a b = true

instance : DecidableRel fileOrd := fun a b => instDecidableEqBool (fileLe a b) true

/-- The ranking computed by `printFileLeaderboard` (the printing itself is
presentation and not modelled): sort a copy of the entries by `fileLe`
— `sort.Slice` is embedded as a deterministic sort with the same
comparator, which every property proved here only uses through sortedness
and permutation — truncate to the requested size capped at the list length,
and report whether the cap reduced it (the "showing" banner). -/
def printFileLeaderboard (entries : List fileStat) (requested : Nat) :
    List fileStat × Bool :=
  let sorted := List.insertionSort fileOrd entries
  let top := if requested > sorted.length then sorted.length else requested
  (sorted.take top, decide (top < requested))

/-- Grouping key of `printExtensionLeaderboard`: lower-cased extension of
the record's path, with the no-extension sentinel. -/
def extKey (p : String) : String :=
  let e := toLowerStr (goExt p)
  if e = "" then "(no extension)" else e

/-- One update of the per-extension aggregation map, as an association
list keyed by extension: bump the matching group or append a fresh one. -/
def insertExt (k : String) (lines : Nat) : List extStat → List extStat
  | [] => [{ Ext := k, Files := 1, Lines := lines }]
  | g :: gs =>
    if g.Ext = k then { Ext := k, Files := g.Files + 1, Lines := g.Lines + lines } :: gs
    else g :: insertExt k lines gs

/-- The `byExt` aggregation loop of `printExtensionLeaderboard`.  The Go
map has no meaningful order; the association list keeps first-occurrence
order, which is irrelevant after the total sort below. -/
def groupExts (entries : List fileStat) : List extStat :=
  entries.foldl (fun gs e => insertExt (extKey e.Path) e.Lines gs) []

/-- Comparator of `printExtensionLeaderboard`'s `sort.Slice` as a
non-strict total relation: more lines first, then more files, then
ascending extension string. -/
def extLe (a b : extStat) : Bool :=
  decide (b.Lines < a.Lines) ||
    (decide (a.Lines = b.Lines) &&
      (decide (b.Files < a.Files) ||
        (decide (a.Files = b.Files) && strLe a.Ext b.Ext)))

/-- The sorting relation of the extension leaderboard, as a `Prop` relation. -/
def extOrd (a b : extStat) : Prop := extLe a b = true

instance : DecidableRel extOrd := fun a b => instDecidableEqBool (extLe a b) true

/-- The ranking computed by `printExtensionLeaderboard` (printing not
modelled): group, sort by `extLe` (same `sort.Slice` embedding as for
files), truncate to the requested size capped at the group count, and
report whether the cap reduced it. -/
def printExtensionLeaderboard (entries : List fileStat) (requested : Nat) :
    List extStat × Bool :=
  let sorted := List.insertionSort extOrd (groupExts entries)
  let top := if requested > sorted.length then sorted.length else requested
  (sorted.take top, decide (top < requested))

/-- The aggregate/per-file consistency invariant of `stats`. -/
def statsConsistent (s : stats) : Prop :=
  s.Files = s.PerFile.length ∧
  s.Lines = (s.PerFile.map fileStat.Lines).sum ∧
  s.Bytes = (s.PerFile.map fileStat.Bytes).sum

/-- A ten-line, twenty-byte ASCII file body (`"a\n"` ten times), used by the
concrete test-tree instances below. -/
def tenLines : List Nat := (List.replicate 10 [97, 10]).flatten

/-! ## Helper lemmas -/

theorem foldl_countLinesStep_fst (data : List Nat) (init : Nat × Bool) :
    (data.foldl countLinesStep init).1 = init.1 + data.count 10 := by
  induction data generalizing init with
  | nil => simp
  | cons b rest ih =>
    simp only [List.foldl_cons, ih, countLinesStep, List.count_cons]
    by_cases hb : b = 10
    · simp [hb]
      omega
    · simp [hb]

theorem foldl_countLinesStep_snd (data : List Nat) (init : Nat × Bool) :
    (data.foldl countLinesStep init).2 =
      (match data.getLast? with
       | none => init.2
       | some b => decide (b = 10)) := by
  induction data generalizing init with
  | nil => simp
  | cons b rest ih =>
    simp only [List.foldl_cons, ih]
    cases rest with
    | nil => by_cases hb : b = 10 <;> simp [countLinesStep, hb]
    | cons c rest2 =>
      obtain ⟨x, hx⟩ : ∃ x, (c :: rest2).getLast? = some x :=
        Option.isSome_iff_exists.mp (List.getLast?_isSome.mpr (by simp))
      simp [List.getLast?_cons_cons, hx]

theorem countLines_closed_form (data : List Nat) :
    countLines data =
      ((if data = [] then 0
        else if data.getLast? = some 10 then data.count 10
        else data.count 10 + 1), data.length) := by
  unfold countLines
  simp only [foldl_countLinesStep_fst, foldl_countLinesStep_snd]
  cases hl : data.getLast? with
  | none =>
    have hnil : data = [] := List.getLast?_eq_none_iff.mp hl
    simp [hnil]
  | some x =>
    have hne : data ≠ [] := by
      intro h
      rw [h] at hl
      simp at hl
    have hlen : 0 < data.length := List.length_pos.mpr hne
    by_cases hx : x = 10
    · simp [hx, hlen, hne]
    · have : (some x = some 10) = False := by simp [hx]
      simp [hlen, hne, hx]

/-! ## Claim theorems -/

/-- C1: `countLines` on the empty stream yields `(0, 0)`; on a non-empty
stream ending in a line-feed it yields the number of line-feed bytes; on a
non-empty stream not ending in a line-feed it yields that number plus one;
the byte size is always the stream length; and a non-empty stream of
carriage-return bytes only counts as a single line. -/
theorem countLines_spec (data : List Nat) :
    (countLines data =
      ((if data = [] then 0
        else if data.getLast? = some 10 then data.count 10
        else data.count 10 + 1), data.length)) ∧
    (data ≠ [] → (∀ b ∈ data, b = 13) → (countLines data).1 = 1) := by
  refine ⟨countLines_closed_form data, ?_⟩
  intro hne hcr
  have hcount : data.count 10 = 0 := by
    rw [List.count_eq_zero]
    intro hmem
    have := hcr 10 hmem
    omega
  have hlast : data.getLast? ≠ some 10 := by
    intro h
    have hm : 10 ∈ data := by
      have := List.getLast?_eq_getLast data hne
      rw [this] at h
      have := List.getLast_mem hne
      rwa [Option.some_inj.mp h] at this
    have := hcr 10 hm
    omega
  rw [countLines_closed_form data]
  simp [hne, hlast, hcount]

/-- Witness for C1 at a concrete carriage-return-only stream. -/
theorem countLines_spec_witness : (countLines [13, 13, 13]).1 = 1 :=
  (countLines_spec [13, 13, 13]).2 (by decide) (by decide)

theorem nonTextCount_go (data : List Nat) (n : Nat) :
    data.foldl
      (fun nonText b =>
        if b = 10 ∨ b = 13 ∨ b = 9 then nonText
        else if 32 ≤ b ∧ b ≤ 126 then nonText
        else if 128 ≤ b then nonText
        else nonText + 1) n
    = n + data.countP
        (fun b => decide (¬ (b = 10 ∨ b = 13 ∨ b = 9 ∨ (32 ≤ b ∧ b ≤ 126) ∨ 128 ≤ b))) := by
  induction data generalizing n with
  | nil => simp
  | cons b rest ih =>
    simp only [List.foldl_cons, List.countP_cons, ih]
    by_cases h1 : b = 10 ∨ b = 13 ∨ b = 9
    · simp [h1]
      omega
    · by_cases h2 : 32 ≤ b ∧ b ≤ 126
      · simp [h1, h2]
      · by_cases h3 : 128 ≤ b
        · simp [h1, h2, h3]
        · simp only [h1, h2, h3, if_false]
          simp [h1, h2, h3]
          omega

theorem nonTextCount_eq_countP (data : List Nat) :
    nonTextCount data =
      data.countP
        (fun b => decide (¬ (b = 10 ∨ b = 13 ∨ b = 9 ∨ (32 ≤ b ∧ b ≤ 126) ∨ 128 ≤ b))) := by
  unfold nonTextCount
  rw [nonTextCount_go]
  omega

/-- C3: with a non-empty explicit include-extension set, a regular file that
survives the hidden-file rule is counted exactly when its lower-cased
extension is in the set; the right-hand side mentions neither the
default-skip-file list nor the classifier, and the sniff outcome is
universally quantified, so the decision bypasses both.  The closed conjunct
is the spec's two-file tree: with set {".go"}, one ten-line `.go` file and
one ten-line `.md` file yield Files = 1, Lines = 10. -/
theorem scan_explicitExtensions :
    (∀ (skip cs : List String) (c : String) (includeHidden : Bool)
       (root path name : String) (sniff read : ReadOutcome) (s : stats),
      walkEntry skip (c :: cs) includeHidden root path (.file name true sniff read) s =
        if includeHidden = false ∧ startsWithDot name then Except.ok s
        else if (c :: cs).contains (toLowerStr (goExt name)) then tallyFile root path read s
        else Except.ok s) ∧
    scan "." [] [".go"] false
      (.dir "." none (.cons (.file "a.go" true (.ok tenLines) (.ok tenLines))
        (.cons (.file "b.md" true (.ok tenLines) (.ok tenLines)) .nil))) =
      Except.ok { Files := 1, Lines := 10, Bytes := 20,
                  PerFile := [{ Path := "a.go", Lines := 10, Bytes := 20 }] } := by
  refine ⟨?_, rfl⟩
  intro skip cs c includeHidden root path name sniff read s
  simp only [walkEntry, visitFile]
  rw [if_neg (by simp)]
  by_cases hh : includeHidden = false ∧ startsWithDot name
  · simp [hh]
  · rw [if_neg hh, if_neg hh]
    have hlen : 0 < (c :: cs).length := by simp
    rw [if_pos hlen]
    cases hc : (c :: cs).contains (toLowerStr (goExt name)) <;> simp [hc]

/-- C2: the text classifier returns text on an empty sample, binary when a
NUL byte occurs among the first (up to) 8192 bytes, otherwise binary
exactly when the fraction of sampled bytes outside
{LF, CR, TAB, 0x20..0x7E, ≥ 0x80} exceeds 0.30 (a fraction of exactly 0.30
stays text, as witnessed by the 3-in-10 sample below), and binary on every
open or read failure. -/
theorem isLikelyTextFile_spec :
    (isLikelyTextFile .permDenied = false ∧ isLikelyTextFile .otherErr = false) ∧
    (∀ data : List Nat,
      isLikelyTextFile (.ok data) =
        (let sample := data.take 8192
         if sample = [] then true
         else if 0 ∈ sample then false
         else decide (10 * sample.countP
             (fun b => decide (¬ (b = 10 ∨ b = 13 ∨ b = 9 ∨ (32 ≤ b ∧ b ≤ 126) ∨ 128 ≤ b)))
           ≤ 3 * sample.length))) ∧
    isLikelyTextFile (.ok ([1, 1, 1] ++ List.replicate 7 65)) = true ∧
    isLikelyTextFile (.ok (List.replicate 4 0)) = false ∧
    isLikelyTextFile (.ok []) = true := by
  refine ⟨⟨rfl, rfl⟩, ?_, by decide, by decide, rfl⟩
  intro data
  unfold isLikelyTextFile
  simp only [nonTextCount_eq_countP]
  simp [List.length_eq_zero]

theorem walkEntry_dir_eq (skip count : List String) (includeHidden : Bool)
    (root path name : String) (listErr : Option GoErr) (entries : EntryList)
    (s : stats) :
    walkEntry skip count includeHidden root path (.dir name listErr entries) s =
      if (skip.contains name ∨ (includeHidden = false ∧ startsWithDot name)) ∧ path ≠ root
      then Except.ok s
      else
        match listErr with
        | some e => Except.error e
        | none => walkEntries skip count includeHidden root path entries s := by
  simp only [walkEntry]
  by_cases hroot : path = root
  · simp [hroot]
  · by_cases hskip : name ∈ skip
    · simp [hskip, hroot]
    · by_cases hhid : includeHidden = false ∧ startsWithDot name
      · simp [hskip, hroot, hhid]
      · simp [hskip, hroot, hhid]

/-- C6: a directory is pruned — the walk returns the stats untouched, so no
file of its subtree contributes anything — exactly when its path differs
from the scan root and its name is in the skip-set or (with hidden entries
excluded) starts with a dot; any directory visited at the root path, the
root itself included, is always descended.  Every non-root directory is
visited at a `/`-joined path, which the second conjunct shows can never
equal the root.  The closed conjunct prunes a `node_modules` subtree full
of countable files and a hidden directory, leaving only the top-level
file. -/
theorem dirSkip_spec :
    (∀ (skip count : List String) (includeHidden : Bool)
       (root path name : String) (listErr : Option GoErr) (entries : EntryList)
       (s : stats),
      walkEntry skip count includeHidden root path (.dir name listErr entries) s =
        if (skip.contains name ∨ (includeHidden = false ∧ startsWithDot name)) ∧ path ≠ root
        then Except.ok s
        else
          match listErr with
          | some e => Except.error e
          | none => walkEntries skip count includeHidden root path entries s) ∧
    (∀ (root rest : String), root ++ "/" ++ rest ≠ root) ∧
    scan "." defaultSkipDirs [] false
      (.dir "." none
        (.cons (.file "a.go" true (.ok tenLines) (.ok tenLines))
        (.cons (.dir "node_modules" none
          (.cons (.file "x.go" true (.ok tenLines) (.ok tenLines))
          (.cons (.dir "deep" none
            (.cons (.file "y.go" true (.ok tenLines) (.ok tenLines)) .nil)) .nil)))
        (.cons (.dir ".cache" none
          (.cons (.file "z.go" true (.ok tenLines) (.ok tenLines)) .nil)) .nil)))) =
      Except.ok { Files := 1, Lines := 10, Bytes := 20,
                  PerFile := [{ Path := "a.go", Lines := 10, Bytes := 20 }] } := by
  refine ⟨walkEntry_dir_eq, ?_, rfl⟩
  intro root rest h
  have hdata := congrArg String.data h
  simp only [String.data_append] at hdata
  have := congrArg List.length hdata
  simp at this

/-- Witness for C6: a concrete joined child path differs from its root. -/
theorem dirSkip_spec_witness : "." ++ "/" ++ "sub" ≠ "." :=
  dirSkip_spec.2.1 "." "sub"

/-- C9: a permission-denied error while reading a file is swallowed: the
walk returns the stats unchanged (first conjunct) and the enclosing
directory fold simply moves on (second conjunct).  Any other read error on
an accepted file is fatal: with an explicit extension set the walk returns
it whenever the extension matches (third conjunct), and on the default path
whenever the file passes the name, extension and classifier filters (fourth
conjunct). -/
theorem readError_spec :
    (∀ (skip count : List String) (includeHidden : Bool)
       (root path name : String) (isRegular : Bool) (sniff : ReadOutcome) (s : stats),
      walkEntry skip count includeHidden root path
        (.file name isRegular sniff .permDenied) s = Except.ok s) ∧
    (∀ (skip count : List String) (includeHidden : Bool)
       (root parent name : String) (isRegular : Bool) (sniff : ReadOutcome)
       (rest : EntryList) (s : stats),
      walkEntries skip count includeHidden root parent
        (.cons (.file name isRegular sniff .permDenied) rest) s =
        walkEntries skip count includeHidden root parent rest s) ∧
    (∀ (skip cs : List String) (c : String) (includeHidden : Bool)
       (root path name : String) (sniff : ReadOutcome) (s : stats),
      walkEntry skip (c :: cs) includeHidden root path
        (.file name true sniff .otherErr) s =
        if includeHidden = false ∧ startsWithDot name then Except.ok s
        else if (c :: cs).contains (toLowerStr (goExt name)) then Except.error GoErr.other
        else Except.ok s) ∧
    (∀ (skip : List String) (includeHidden : Bool)
       (root path name : String) (sniff : ReadOutcome) (s : stats),
      walkEntry skip [] includeHidden root path
        (.file name true sniff .otherErr) s =
        if includeHidden = false ∧ startsWithDot name then Except.ok s
        else if defaultSkipFiles.contains (toLowerStr name) then Except.ok s
        else if toLowerStr (goExt name) = "" ∨ toLowerStr (goExt name) = ".exe" then Except.ok s
        else if isLikelyTextFile sniff = false then Except.ok s
        else Except.error GoErr.other) := by
  have hperm : ∀ (root path : String) (s : stats),
      tallyFile root path .permDenied s = Except.ok s := fun _ _ _ => rfl
  have hother : ∀ (root path : String) (s : stats),
      tallyFile root path .otherErr s = Except.error GoErr.other := fun _ _ _ => rfl
  have hA : ∀ (skip count : List String) (includeHidden : Bool)
      (root path name : String) (isRegular : Bool) (sniff : ReadOutcome) (s : stats),
      walkEntry skip count includeHidden root path
        (.file name isRegular sniff .permDenied) s = Except.ok s := by
    intro skip count includeHidden root path name isRegular sniff s
    simp only [walkEntry, visitFile, hperm]
    repeat first | rfl | split
  refine ⟨hA, ?_, ?_, ?_⟩
  · intro skip count includeHidden root parent name isRegular sniff rest s
    simp only [walkEntries, Entry.name, hA]
  · intro skip cs c includeHidden root path name sniff s
    simp only [walkEntry, visitFile, hother]
    rw [if_neg (by simp)]
    by_cases hh : includeHidden = false ∧ startsWithDot name
    · simp [hh]
    · rw [if_neg hh, if_neg hh]
      have hlen : 0 < (c :: cs).length := by simp
      rw [if_pos hlen]
      cases hc : (c :: cs).contains (toLowerStr (goExt name)) <;> simp [hc]
  · intro skip includeHidden root path name sniff s
    simp only [walkEntry, visitFile, hother]
    rw [if_neg (by simp)]
    by_cases hh : includeHidden = false ∧ startsWithDot name
    · simp [hh]
    · rw [if_neg hh, if_neg hh]
      rw [if_neg (by simp)]

/-- C7: on the default path (empty explicit extension set), a regular,
readable, non-hidden-excluded file is left out of the result exactly when
its lower-cased name is on the built-in skip-file list, or its lower-cased
extension is empty or ".exe", or the classifier calls it binary; the listed
lock/manifest names are all on that list; and the spec's `go.sum` example —
valid text, has an extension — is excluded from a concrete scan. -/
theorem defaultFileFilter_spec :
    (∀ (skip : List String) (includeHidden : Bool) (root path name : String)
       (sniff : ReadOutcome) (data : List Nat) (s : stats),
      (includeHidden = true ∨ startsWithDot name = false) →
      (walkEntry skip [] includeHidden root path
          (.file name true sniff (.ok data)) s = Except.ok s ↔
        (defaultSkipFiles.contains (toLowerStr name) = true ∨
         toLowerStr (goExt name) = "" ∨ toLowerStr (goExt name) = ".exe" ∨
         isLikelyTextFile sniff = false))) ∧
    (["package-lock.json", "yarn.lock", "cargo.lock", "cargo.toml", "go.sum",
      "poetry.lock", "pipfile.lock", "composer.lock",
      "gemfile.lock"].all defaultSkipFiles.contains = true) ∧
    scan "." [] [] false
      (.dir "." none (.cons (.file "go.sum" true (.ok tenLines) (.ok tenLines)) .nil)) =
      Except.ok { Files := 0, Lines := 0, Bytes := 0, PerFile := [] } := by
  refine ⟨?_, by decide, rfl⟩
  intro skip includeHidden root path name sniff data s hh
  have hhid : ¬ (includeHidden = false ∧ startsWithDot name = true) := by
    rcases hh with h | h <;> simp [h]
  simp only [walkEntry, visitFile]
  rw [if_neg (by simp), if_neg hhid, if_neg (by simp)]
  by_cases hsk : defaultSkipFiles.contains (toLowerStr name) = true
  · rw [if_pos hsk]
    constructor
    · intro _
      exact Or.inl hsk
    · intro _
      rfl
  · rw [if_neg (by simpa using hsk)]
    by_cases hext : toLowerStr (goExt name) = "" ∨ toLowerStr (goExt name) = ".exe"
    · rw [if_pos hext]
      constructor
      · intro _
        tauto
      · intro _
        rfl
    · rw [if_neg hext]
      cases ht : isLikelyTextFile sniff
      · rw [if_pos (by simp [ht])]
        constructor
        · intro _
          tauto
        · intro _
          rfl
      · rw [if_neg (by simp [ht])]
        constructor
        · intro htal
          simp only [tallyFile, countLinesAt, readFile] at htal
          have hs := Except.ok.inj htal
          have := congrArg stats.Files hs
          simp at this
        · intro hfalse
          rcases hfalse with h | h | h | h
          · exact absurd h hsk
          · exact absurd (Or.inl h) hext
          · exact absurd (Or.inr h) hext
          · simp [ht] at h

/-- Witness for C7: the hidden-rule hypothesis discharged at `go.sum` inside
a scan that then excludes the file. -/
theorem defaultFileFilter_spec_witness :
    walkEntry [] [] true "." "./go.sum"
      (.file "go.sum" true (.ok tenLines) (.ok tenLines))
      { Files := 0, Lines := 0, Bytes := 0, PerFile := [] } =
      Except.ok { Files := 0, Lines := 0, Bytes := 0, PerFile := [] } :=
  (defaultFileFilter_spec.1 [] true "." "./go.sum" "go.sum"
    (.ok tenLines) tenLines _ (Or.inl rfl)).mpr (Or.inl (by decide))

/-- C8, counterexample: the claim says a permission-denied error raised
while enumerating a directory does not abort the scan, but the callback
returns every non-nil `walkErr` unchanged, so this concrete scan — whose
only defect is a permission-denied `ReadDir` on `sub` — aborts with that
error instead of returning a (empty) result. -/
theorem scan_enumError_counterexample :
    scan "." [] [] false
      (.dir "." none (.cons (.dir "sub" (some .permission) .nil) .nil)) =
      Except.error GoErr.permission := rfl

/-- C8, amended: every enumeration failure — permission-denied included —
and every non-permission read failure aborts the scan: a non-skipped
directory whose enumeration fails makes the walk return exactly that error
(first conjunct), a failing child aborts the enclosing directory fold with
the same error as the sole outcome (second conjunct, which also shows no
partial aggregates survive: the result is only the error), and a concrete
scan that has already counted a file still ends in just the fatal error
(third conjunct). -/
theorem scan_enumError_amended :
    (∀ (skip count : List String) (includeHidden : Bool)
       (root path name : String) (e : GoErr) (entries : EntryList) (s : stats),
      walkEntry skip count includeHidden root path (.dir name (some e) entries) s =
        if (skip.contains name ∨ (includeHidden = false ∧ startsWithDot name)) ∧ path ≠ root
        then Except.ok s
        else Except.error e) ∧
    (∀ (skip count : List String) (includeHidden : Bool)
       (root parent : String) (e : Entry) (rest : EntryList) (s : stats) (err : GoErr),
      walkEntry skip count includeHidden root (parent ++ "/" ++ e.name) e s =
          Except.error err →
      walkEntries skip count includeHidden root parent (.cons e rest) s =
        Except.error err) ∧
    scan "." [] [".go"] false
      (.dir "." none (.cons (.file "a.go" true (.ok tenLines) (.ok tenLines))
        (.cons (.dir "bad" (some .other) .nil) .nil))) =
      Except.error GoErr.other := by
  refine ⟨?_, ?_, rfl⟩
  · intro skip count includeHidden root path name e entries s
    rw [walkEntry_dir_eq]
  · intro skip count includeHidden root parent e rest s err hchild
    simp only [walkEntries, hchild]

/-- Witness for C8's amended theorem: the propagation conjunct applied to a
concrete failing child. -/
theorem scan_enumError_amended_witness :
    walkEntries [] [] false "." "."
      (.cons (.dir "bad" (some .other) .nil) .nil)
      { Files := 0, Lines := 0, Bytes := 0, PerFile := [] } =
      Except.error GoErr.other :=
  scan_enumError_amended.2.1 [] [] false "." "." (.dir "bad" (some .other) .nil)
    .nil _ GoErr.other rfl

theorem visitFile_consistent (count : List String) (includeHidden : Bool)
    (root path name : String) (isRegular : Bool) (sniff read : ReadOutcome)
    (s s1 : stats) (hs : statsConsistent s)
    (h : visitFile count includeHidden root path name isRegular sniff read s =
      Except.ok s1) : statsConsistent s1 := by
  obtain ⟨hf, hl, hb⟩ := hs
  simp only [visitFile, tallyFile, countLinesAt, readFile] at h
  repeat' split at h
  all_goals
    first
    | (cases h; exact ⟨hf, hl, hb⟩)
    | (cases h; refine ⟨?_, ?_, ?_⟩ <;> simp [hf, hl, hb])
    | cases h

mutual
theorem walkEntry_consistent (skip count : List String) (includeHidden : Bool)
    (root : String) (e : Entry) (path : String) (s s1 : stats)
    (hs : statsConsistent s)
    (h : walkEntry skip count includeHidden root path e s = Except.ok s1) :
    statsConsistent s1 := by
  cases e with
  | file name isRegular sniff read =>
    exact visitFile_consistent count includeHidden root path name isRegular
      sniff read s s1 hs (by simpa [walkEntry] using h)
  | dir name listErr entries =>
    rw [walkEntry_dir_eq] at h
    by_cases hc :
        (skip.contains name ∨ (includeHidden = false ∧ startsWithDot name)) ∧ path ≠ root
    · rw [if_pos hc] at h
      cases h
      exact hs
    · rw [if_neg hc] at h
      cases listErr with
      | some e => cases h
      | none =>
        exact walkEntries_consistent skip count includeHidden root entries path s s1 hs h
termination_by sizeOf e
theorem walkEntries_consistent (skip count : List String) (includeHidden : Bool)
    (root : String) (es : EntryList) (parent : String) (s s1 : stats)
    (hs : statsConsistent s)
    (h : walkEntries skip count includeHidden root parent es s = Except.ok s1) :
    statsConsistent s1 := by
  cases es with
  | nil =>
    simp only [walkEntries] at h
    cases h
    exact hs
  | cons e rest =>
    simp only [walkEntries] at h
    cases hw : walkEntry skip count includeHidden root (parent ++ "/" ++ e.name) e s with
    | error err => rw [hw] at h; cases h
    | ok s2 =>
      rw [hw] at h
      exact walkEntries_consistent skip count includeHidden root rest parent s2 s1
        (walkEntry_consistent skip count includeHidden root e
          (parent ++ "/" ++ e.name) s s2 hs hw) h
termination_by sizeOf es
end

/-- C10: whenever a scan succeeds, its aggregates agree with its per-file
records: the file counter equals the number of records, and the line and
byte totals equal the sums of the records' line and byte counts. -/
theorem scanResult_consistent (root : String) (skip count : List String)
    (includeHidden : Bool) (fsys : Entry) (s : stats)
    (h : scan root skip count includeHidden fsys = Except.ok s) :
    statsConsistent s :=
  walkEntry_consistent skip count includeHidden root fsys root
    { Files := 0, Lines := 0, Bytes := 0, PerFile := [] } s
    ⟨rfl, rfl, rfl⟩ h

/-- Witness for C10 at a concrete two-file scan. -/
theorem scanResult_consistent_witness :
    statsConsistent
      { Files := 2, Lines := 20, Bytes := 40,
        PerFile := [{ Path := "a.go", Lines := 10, Bytes := 20 },
                    { Path := "b.go", Lines := 10, Bytes := 20 }] } :=
  scanResult_consistent "." [] [] false
    (.dir "." none (.cons (.file "a.go" true (.ok tenLines) (.ok tenLines))
      (.cons (.file "b.go" true (.ok tenLines) (.ok tenLines)) .nil)))
    _ rfl

theorem lexLe_total : ∀ as bs : List Char, lexLe as bs = true ∨ lexLe bs as = true := by
  intro as
  induction as with
  | nil =>
    intro bs
    left
    rfl
  | cons a as2 ih =>
    intro bs
    cases bs with
    | nil =>
      right
      rfl
    | cons b bs2 =>
      by_cases hab : a = b
      · subst hab
        simpa [lexLe] using ih bs2
      · rcases lt_or_gt_of_ne hab with h | h
        · left
          simp [lexLe, hab, h]
        · right
          simp [lexLe, Ne.symm hab, h]

theorem lexLe_trans :
    ∀ as bs cs : List Char,
      lexLe as bs = true → lexLe bs cs = true → lexLe as cs = true := by
  intro as
  induction as with
  | nil =>
    intro bs cs _ _
    rfl
  | cons a as2 ih =>
    intro bs cs h1 h2
    cases bs with
    | nil => simp [lexLe] at h1
    | cons b bs2 =>
      cases cs with
      | nil => simp [lexLe] at h2
      | cons c cs2 =>
        simp only [lexLe] at h1 h2 ⊢
        by_cases hab : a = b
        · subst hab
          by_cases hac : a = c
          · subst hac
            simp only [if_pos rfl] at h1 h2 ⊢
            exact ih bs2 cs2 h1 h2
          · simpa [hac] using h2
        · by_cases hbc : b = c
          · subst hbc
            simpa [hab] using h1
          · rw [if_neg hab] at h1
            rw [if_neg hbc] at h2
            have hlt : a < c := lt_trans (of_decide_eq_true h1) (of_decide_eq_true h2)
            simp [ne_of_lt hlt, hlt]

theorem strLe_total (a b : String) : strLe a b = true ∨ strLe b a = true :=
  lexLe_total a.toList b.toList

theorem strLe_trans (a b c : String) :
    strLe a b = true → strLe b c = true → strLe a c = true :=
  lexLe_trans a.toList b.toList c.toList

theorem fileOrd_iff (a b : fileStat) :
    fileOrd a b ↔
      (b.Lines < a.Lines ∨ (a.Lines = b.Lines ∧ strLe a.Path b.Path = true)) := by
  simp [fileOrd, fileLe]

theorem fileOrd_total (a b : fileStat) : fileOrd a b ∨ fileOrd b a := by
  rw [fileOrd_iff, fileOrd_iff]
  rcases Nat.lt_trichotomy a.Lines b.Lines with h | h | h
  · right
    exact Or.inl h
  · rcases strLe_total a.Path b.Path with hp | hp
    · exact Or.inl (Or.inr ⟨h, hp⟩)
    · exact Or.inr (Or.inr ⟨h.symm, hp⟩)
  · left
    exact Or.inl h

theorem fileOrd_trans (a b c : fileStat) :
    fileOrd a b → fileOrd b c → fileOrd a c := by
  rw [fileOrd_iff, fileOrd_iff, fileOrd_iff]
  rintro (h1 | ⟨h1, hp1⟩) (h2 | ⟨h2, hp2⟩)
  · exact Or.inl (lt_trans h2 h1)
  · exact Or.inl (h2 ▸ h1)
  · exact Or.inl (h1 ▸ h2)
  · exact Or.inr ⟨h1.trans h2, strLe_trans _ _ _ hp1 hp2⟩

/-- C4: the file leaderboard truncates to min(N, number of records); its
output is sorted descending by line count with ties broken by ascending
path; it is an initial segment of a full sorted permutation of the input;
the second component signals when fewer than N records were available; and
when fewer than N exist the output is all of them.  The closed conjunct is
the spec's tie-break example. -/
theorem printFileLeaderboard_spec :
    (∀ (entries : List fileStat) (requested : Nat),
      ((printFileLeaderboard entries requested).1.length = min requested entries.length) ∧
      (printFileLeaderboard entries requested).1.Pairwise
        (fun a b => b.Lines < a.Lines ∨ (a.Lines = b.Lines ∧ strLe a.Path b.Path = true)) ∧
      (∃ l : List fileStat, l.Perm entries ∧
        l.Pairwise
          (fun a b => b.Lines < a.Lines ∨ (a.Lines = b.Lines ∧ strLe a.Path b.Path = true)) ∧
        (printFileLeaderboard entries requested).1 = l.take (min requested entries.length)) ∧
      ((printFileLeaderboard entries requested).2 = decide (entries.length < requested)) ∧
      (entries.length < requested → (printFileLeaderboard entries requested).1.Perm entries)) ∧
    printFileLeaderboard
      [{ Path := "b.go", Lines := 50, Bytes := 0 }, { Path := "a.go", Lines := 50, Bytes := 0 },
       { Path := "c.go", Lines := 30, Bytes := 0 }] 3 =
      ([{ Path := "a.go", Lines := 50, Bytes := 0 }, { Path := "b.go", Lines := 50, Bytes := 0 },
        { Path := "c.go", Lines := 30, Bytes := 0 }], false) := by
  refine ⟨?_, rfl⟩
  intro entries requested
  haveI : IsTotal fileStat fileOrd := ⟨fileOrd_total⟩
  haveI : IsTrans fileStat fileOrd := ⟨fun a b c => fileOrd_trans a b c⟩
  have hsorted : (List.insertionSort fileOrd entries).Pairwise fileOrd :=
    List.sorted_insertionSort fileOrd entries
  have hperm : (List.insertionSort fileOrd entries).Perm entries :=
    List.perm_insertionSort fileOrd entries
  have hlen : (List.insertionSort fileOrd entries).length = entries.length :=
    List.length_insertionSort fileOrd entries
  simp only [printFileLeaderboard, hlen]
  have htop :
      (if requested > entries.length then entries.length else requested) =
        min requested entries.length := by
    split <;> omega
  rw [htop]
  refine ⟨?_, ?_, ?_, ?_, ?_⟩
  · rw [List.length_take, hlen]
    omega
  · exact (List.Pairwise.sublist (List.take_sublist _ _) hsorted).imp
      (fun h => (fileOrd_iff _ _).mp h)
  · exact ⟨List.insertionSort fileOrd entries, hperm,
      hsorted.imp (fun h => (fileOrd_iff _ _).mp h), rfl⟩
  · apply decide_eq_decide.mpr
    omega
  · intro hfew
    have : min requested entries.length = entries.length := by omega
    rw [this, ← hlen, List.take_length]
    exact hperm

/-- Witness for C4: with a single record and N = 10, the output is a
permutation of (here: equal to) the whole input. -/
theorem printFileLeaderboard_spec_witness :
    (printFileLeaderboard [{ Path := "a.go", Lines := 5, Bytes := 1 }] 10).1.Perm
      [{ Path := "a.go", Lines := 5, Bytes := 1 }] :=
  (printFileLeaderboard_spec.1 [{ Path := "a.go", Lines := 5, Bytes := 1 }] 10).2.2.2.2
    (by decide)

theorem insertExt_find? (k : String) (lines : Nat) (k2 : String) (gs : List extStat) :
    (insertExt k lines gs).find? (fun g => decide (g.Ext = k2)) =
      if k2 = k then
        match gs.find? (fun g => decide (g.Ext = k)) with
        | some g => some { Ext := k, Files := g.Files + 1, Lines := g.Lines + lines }
        | none => some { Ext := k, Files := 1, Lines := lines }
      else gs.find? (fun g => decide (g.Ext = k2)) := by
  induction gs with
  | nil =>
    by_cases hk : k2 = k
    · simp [insertExt, List.find?, hk]
    · have hk2 : ¬ (k = k2) := fun h => hk (Eq.symm h)
      simp [insertExt, List.find?, hk, hk2]
  | cons g gs ih =>
    simp only [insertExt]
    by_cases hg : g.Ext = k
    · rw [if_pos hg]
      by_cases hk : k2 = k
      · subst hk
        simp [List.find?_cons, hg]
      · have hne : ¬ (g.Ext = k2) := by
          rw [hg]
          exact fun h => hk (Eq.symm h)
        have hk2 : ¬ (k = k2) := fun h => hk (Eq.symm h)
        simp [List.find?_cons, hne, hk, hk2]
    · rw [if_neg hg]
      by_cases hk : k2 = k
      · subst hk
        simp only [List.find?_cons, hg, decide_eq_true_eq, ite_true, if_pos rfl] at ih ⊢
        simp [ih, hg]
      · by_cases hg2 : g.Ext = k2
        · simp [List.find?_cons, hg2, hk]
        · simp only [List.find?_cons, hg2, decide_eq_true_eq, if_neg hk] at ih ⊢
          simp [ih, hg2, hk]

theorem groupExts_go_find? (k : String) (entries : List fileStat) :
    ∀ gs : List extStat,
      ((entries.foldl (fun acc e => insertExt (extKey e.Path) e.Lines acc) gs).find?
          (fun g => decide (g.Ext = k))) =
        (match gs.find? (fun g => decide (g.Ext = k)) with
         | some g =>
           some { Ext := g.Ext,
                  Files := g.Files +
                    (entries.filter (fun e => decide (extKey e.Path = k))).length,
                  Lines := g.Lines +
                    ((entries.filter (fun e => decide (extKey e.Path = k))).map
                      fileStat.Lines).sum }
         | none =>
           if (entries.filter (fun e => decide (extKey e.Path = k))).length = 0 then none
           else
             some { Ext := k,
                    Files := (entries.filter (fun e => decide (extKey e.Path = k))).length,
                    Lines :=
                      ((entries.filter (fun e => decide (extKey e.Path = k))).map
                        fileStat.Lines).sum }) := by
  induction entries with
  | nil =>
    intro gs
    cases h : gs.find? (fun g => decide (g.Ext = k)) with
    | none => simp [h]
    | some g => simp [h]
  | cons e rest ih =>
    intro gs
    simp only [List.foldl_cons]
    rw [ih (insertExt (extKey e.Path) e.Lines gs),
      insertExt_find? (extKey e.Path) e.Lines k gs]
    by_cases hk : extKey e.Path = k
    · rw [if_pos (Eq.symm hk)]
      cases hgs : gs.find? (fun g => decide (g.Ext = k)) with
      | some g =>
        have hgext : g.Ext = k := by
          have := List.find?_some hgs
          simpa using this
        simp only [hk]
        rw [hgs]
        simp [List.filter_cons, hk, hgext]
        omega
      | none =>
        simp only [hk]
        rw [hgs]
        simp [List.filter_cons, hk]
        omega
    · have hk2 : ¬ (k = extKey e.Path) := fun h => hk (Eq.symm h)
      rw [if_neg hk2]
      simp [List.filter_cons, hk]

/-- Characterization of the per-extension grouping: looking up any key in
the aggregation gives exactly the count and line sum of the records with
that key, and nothing when no record has it. -/
theorem groupExts_find? (entries : List fileStat) (k : String) :
    (groupExts entries).find? (fun g => decide (g.Ext = k)) =
      (if (entries.filter (fun e => decide (extKey e.Path = k))).length = 0 then none
       else
         some { Ext := k,
                Files := (entries.filter (fun e => decide (extKey e.Path = k))).length,
                Lines :=
                  ((entries.filter (fun e => decide (extKey e.Path = k))).map
                    fileStat.Lines).sum }) := by
  unfold groupExts
  rw [groupExts_go_find?]
  simp [List.find?]

theorem insertExt_ext_of_mem :
    ∀ (gs : List extStat) (k : String) (lines : Nat) (g : extStat),
      g ∈ insertExt k lines gs → g.Ext = k ∨ g.Ext ∈ gs.map extStat.Ext := by
  intro gs
  induction gs with
  | nil =>
    intro k lines g hg
    simp [insertExt] at hg
    left
    rw [hg]
  | cons h gs ih =>
    intro k lines g hg
    simp only [insertExt] at hg
    by_cases hh : h.Ext = k
    · rw [if_pos hh] at hg
      rcases List.mem_cons.mp hg with hcase | hcase
      · left
        rw [hcase]
      · right
        simp [List.mem_map]
        exact Or.inr ⟨g, hcase, rfl⟩
    · rw [if_neg hh] at hg
      rcases List.mem_cons.mp hg with hcase | hcase
      · right
        simp [hcase]
      · rcases ih k lines g hcase with hk | hmem
        · left
          exact hk
        · right
          simp only [List.map_cons, List.mem_cons]
          exact Or.inr hmem

theorem insertExt_pairwise (gs : List extStat) (k : String) (lines : Nat)
    (hp : gs.Pairwise (fun a b => a.Ext ≠ b.Ext)) :
    (insertExt k lines gs).Pairwise (fun a b => a.Ext ≠ b.Ext) := by
  induction gs with
  | nil => simp [insertExt]
  | cons g gs ih =>
    rcases List.pairwise_cons.mp hp with ⟨hhead, htail⟩
    simp only [insertExt]
    by_cases hg : g.Ext = k
    · rw [if_pos hg]
      refine List.pairwise_cons.mpr ⟨?_, htail⟩
      intro b hb
      simpa [hg] using hhead b hb
    · rw [if_neg hg]
      refine List.pairwise_cons.mpr ⟨?_, ih htail⟩
      intro b hb
      rcases insertExt_ext_of_mem gs k lines b hb with hbk | hbmem
      · rw [hbk]
        exact hg
      · rcases List.mem_map.mp hbmem with ⟨c, hc, hce⟩
        rw [← hce]
        exact hhead c hc

theorem groupExts_pairwise_aux (entries : List fileStat) :
    ∀ gs : List extStat, gs.Pairwise (fun a b => a.Ext ≠ b.Ext) →
      ((entries.foldl (fun acc e => insertExt (extKey e.Path) e.Lines acc) gs).Pairwise
        (fun a b => a.Ext ≠ b.Ext)) := by
  induction entries with
  | nil =>
    intro gs hp
    simpa using hp
  | cons e rest ih =>
    intro gs hp
    simp only [List.foldl_cons]
    exact ih _ (insertExt_pairwise gs (extKey e.Path) e.Lines hp)

theorem extOrd_iff (a b : extStat) :
    extOrd a b ↔
      (b.Lines < a.Lines ∨
        (a.Lines = b.Lines ∧
          (b.Files < a.Files ∨ (a.Files = b.Files ∧ strLe a.Ext b.Ext = true)))) := by
  simp [extOrd, extLe]

theorem extOrd_total (a b : extStat) : extOrd a b ∨ extOrd b a := by
  rw [extOrd_iff, extOrd_iff]
  rcases Nat.lt_trichotomy a.Lines b.Lines with h | h | h
  · right
    exact Or.inl h
  · rcases Nat.lt_trichotomy a.Files b.Files with hf | hf | hf
    · right
      exact Or.inr ⟨h.symm, Or.inl hf⟩
    · rcases strLe_total a.Ext b.Ext with he | he
      · left
        exact Or.inr ⟨h, Or.inr ⟨hf, he⟩⟩
      · right
        exact Or.inr ⟨h.symm, Or.inr ⟨hf.symm, he⟩⟩
    · left
      exact Or.inr ⟨h, Or.inl hf⟩
  · left
    exact Or.inl h

theorem extOrd_trans (a b c : extStat) : extOrd a b → extOrd b c → extOrd a c := by
  rw [extOrd_iff, extOrd_iff, extOrd_iff]
  rintro (h1 | ⟨hl1, h1⟩) (h2 | ⟨hl2, h2⟩)
  · exact Or.inl (lt_trans h2 h1)
  · exact Or.inl (hl2 ▸ h1)
  · exact Or.inl (hl1 ▸ h2)
  · refine Or.inr ⟨hl1.trans hl2, ?_⟩
    rcases h1 with hf1 | ⟨hf1, he1⟩ <;> rcases h2 with hf2 | ⟨hf2, he2⟩
    · exact Or.inl (lt_trans hf2 hf1)
    · exact Or.inl (hf2 ▸ hf1)
    · exact Or.inl (hf1 ▸ hf2)
    · exact Or.inr ⟨hf1.trans hf2, strLe_trans _ _ _ he1 he2⟩

/-- C5: the extension leaderboard groups records by lower-cased extension of
the record's path with a distinct "(no extension)" bucket (fourth and fifth
conjuncts show the bucket keys; the first characterizes every group's file
count and line sum, the second that keys are never duplicated), sorts the
groups descending by summed lines with ties broken by descending file count
and then ascending extension, and truncates to min(N, number of groups)
(third conjunct: length, sortedness, and initial-segment-of-sorted-
permutation).  The closed conjunct is the spec's example where `.md` with
one 40-line file outranks `.go` with three files and 35 lines. -/
theorem printExtensionLeaderboard_spec :
    (∀ (entries : List fileStat) (k : String),
      (groupExts entries).find? (fun g => decide (g.Ext = k)) =
        (if (entries.filter (fun e => decide (extKey e.Path = k))).length = 0 then none
         else
           some { Ext := k,
                  Files := (entries.filter (fun e => decide (extKey e.Path = k))).length,
                  Lines :=
                    ((entries.filter (fun e => decide (extKey e.Path = k))).map
                      fileStat.Lines).sum })) ∧
    (∀ entries : List fileStat,
      (groupExts entries).Pairwise (fun a b => a.Ext ≠ b.Ext)) ∧
    (∀ (entries : List fileStat) (requested : Nat),
      ((printExtensionLeaderboard entries requested).1.length =
        min requested (groupExts entries).length) ∧
      (printExtensionLeaderboard entries requested).1.Pairwise
        (fun a b => b.Lines < a.Lines ∨
          (a.Lines = b.Lines ∧
            (b.Files < a.Files ∨ (a.Files = b.Files ∧ strLe a.Ext b.Ext = true)))) ∧
      (∃ l : List extStat, l.Perm (groupExts entries) ∧
        l.Pairwise
          (fun a b => b.Lines < a.Lines ∨
            (a.Lines = b.Lines ∧
              (b.Files < a.Files ∨ (a.Files = b.Files ∧ strLe a.Ext b.Ext = true)))) ∧
        (printExtensionLeaderboard entries requested).1 =
          l.take (min requested (groupExts entries).length))) ∧
    extKey "Makefile" = "(no extension)" ∧
    extKey "a/b.GO" = ".go" ∧
    printExtensionLeaderboard
      [{ Path := "a.go", Lines := 10, Bytes := 0 }, { Path := "b.go", Lines := 20, Bytes := 0 },
       { Path := "c.go", Lines := 5, Bytes := 0 }, { Path := "d.md", Lines := 40, Bytes := 0 }] 3 =
      ([{ Ext := ".md", Files := 1, Lines := 40 }, { Ext := ".go", Files := 3, Lines := 35 }],
        true) := by
  refine ⟨groupExts_find?, ?_, ?_, rfl, rfl, rfl⟩
  · intro entries
    exact groupExts_pairwise_aux entries [] List.Pairwise.nil
  · intro entries requested
    haveI : IsTotal extStat extOrd := ⟨extOrd_total⟩
    haveI : IsTrans extStat extOrd := ⟨fun a b c => extOrd_trans a b c⟩
    have hsorted : (List.insertionSort extOrd (groupExts entries)).Pairwise extOrd :=
      List.sorted_insertionSort extOrd (groupExts entries)
    have hperm :
        (List.insertionSort extOrd (groupExts entries)).Perm (groupExts entries) :=
      List.perm_insertionSort extOrd (groupExts entries)
    have hlen :
        (List.insertionSort extOrd (groupExts entries)).length =
          (groupExts entries).length :=
      List.length_insertionSort extOrd (groupExts entries)
    simp only [printExtensionLeaderboard, hlen]
    have htop :
        (if requested > (groupExts entries).length then (groupExts entries).length
         else requested) = min requested (groupExts entries).length := by
      split <;> omega
    rw [htop]
    refine ⟨?_, ?_, ?_⟩
    · rw [List.length_take, hlen]
      omega
    · exact (List.Pairwise.sublist (List.take_sublist _ _) hsorted).imp
        (fun h => (extOrd_iff _ _).mp h)
    · exact ⟨List.insertionSort extOrd (groupExts entries), hperm,
        hsorted.imp (fun h => (extOrd_iff _ _).mp h), rfl⟩

end HowManyLines
